import Mathlib

/-!
Shallow embedding of the Wordle game core (src/game.js, with the second
variant src/unnamed/part_000 agreeing on every function embedded here
except where noted): the scoring engine `scoreGuess`, the keyboard hint
aggregator `updateKeyboardStates`, the game-state machine
(`handleKeyInput` / `submitGuess` / `toggleDeveloperMode`), and the
persistence loader `loadPersistedState`.

JavaScript strings become `List Char`; a grid cell holding `''` or a
single letter becomes `Option Char`; the `keyStates` object becomes
`Char → Option Ev`; the external dictionary check `isValidGuess` is a
parameter `valid : List Char → Bool`; the current calendar-day key is a
parameter `today : String`.
-/

namespace Wordle

/-- Per-tile evaluation values stored in `state.evaluations`:
the strings 'empty', 'absent', 'present', 'correct' of the source. -/
inductive Ev where
  | empty
  | absent
  | present
  | correct
deriving DecidableEq, Repr

/-- `state.status` values: 'active', 'won', 'lost'. -/
inductive Status where
  | active
  | won
  | lost
deriving DecidableEq, Repr

/-- const WORD_LENGTH = 5. -/
def WORD_LENGTH : Nat := 5

/-- const MAX_ROWS = 6. -/
def MAX_ROWS : Nat := 6

/-- `acc[letter] = (acc[letter] || 0) + 1` on a count object, as a function
update. Also models `remainingCounts[letter] -= 1` via `decAt`. -/
def incAt (counts : Char → Nat) (letter : Char) : Char → Nat :=
  fun c => if c = letter then counts c + 1 else counts c

/-- `remainingCounts[letter] -= 1` (only ever applied when the count is
positive, so natural subtraction is exact there). -/
def decAt (counts : Char → Nat) (letter : Char) : Char → Nat :=
  fun c => if c = letter then counts c - 1 else counts c

/-- `getLetterCounts(word)`: reduce over the letters building the
letter → occurrence-count map (missing key ≡ count 0). -/
def getLetterCounts (word : List Char) : Char → Nat :=
  word.foldl incAt (fun _ => 0)

/-- Pass 1 of `scoreGuess`: `result` starts all 'absent'; each position
with `guess[i] === answer[i]` is marked 'correct' and that letter's
remaining count is decremented. Returns the result array together with
the remaining counts after the loop. -/
def pass1 : List Char → List Char → (Char → Nat) → List Ev × (Char → Nat)
  | g :: gs, a :: as, counts =>
      if g = a then
        let r := pass1 gs as (decAt counts g)
        (Ev.correct :: r.1, r.2)
      else
        let r := pass1 gs as counts
        (Ev.absent :: r.1, r.2)
  | _, _, counts => ([], counts)

/-- Pass 2 of `scoreGuess`: positions already 'correct' are skipped;
otherwise if the letter's remaining count is > 0 the position becomes
'present' and the count is decremented, else the entry is left as is
(it is 'absent' after pass 1). -/
def pass2 : List Char → List Ev → (Char → Nat) → List Ev
  | g :: gs, r :: rs, counts =>
      if r = Ev.correct then
        Ev.correct :: pass2 gs rs counts
      else if 0 < counts g then
        Ev.present :: pass2 gs rs (decAt counts g)
      else
        r :: pass2 gs rs counts
  | _, _, _ => []

/-- `scoreGuess(guess, answer)` of src/game.js lines 193-217 (identical in
src/unnamed/part_000 lines 146-170): the two-pass scoring scheme. -/
def scoreGuess (guess answer : List Char) : List Ev :=
  let remainingCounts := getLetterCounts answer
  let p1 := pass1 guess answer remainingCounts
  pass2 guess p1.1 p1.2

/-- const statePriority = \x7b absent: 1, present: 2, correct: 3 \x7d; a lookup
of 'empty' (which never occurs) yields `undefined`, i.e. `none`. -/
def statePriority : Ev → Option Nat
  | Ev.absent => some 1
  | Ev.present => some 2
  | Ev.correct => some 3
  | Ev.empty => none

/-- JavaScript `a > b` on two possibly-`undefined` numbers: `false`
whenever either side is `undefined`. -/
def jsGT : Option Nat → Option Nat → Bool
  | some x, some y => decide (y < x)
  | _, _ => false

/-- Body of the `forEach` in `updateKeyboardStates`: replace the hint for
`keyLetter` by `newState` when there is no current hint or the new
priority strictly exceeds the current one. -/
def applyKeyHint (ks : Char → Option Ev) (keyLetter : Char) (newState : Ev) :
    Char → Option Ev :=
  match ks keyLetter with
  | none => fun c => if c = keyLetter then some newState else ks c
  | some currentState =>
      if jsGT (statePriority newState) (statePriority currentState) then
        fun c => if c = keyLetter then some newState else ks c
      else
        ks

/-- `updateKeyboardStates(guessLetters, scoredStates)` of src/game.js lines
219-228 (identical in part_000 lines 172-181), acting on the `keyStates`
map: fold the per-position hints over the (lower-cased letter, scored
state) pairs. -/
def updateKeyboardStates (ks : Char → Option Ev) (guessLetters : List Char)
    (scoredStates : List Ev) : Char → Option Ev :=
  (guessLetters.zip scoredStates).foldl
    (fun acc p => applyKeyHint acc p.1.toLower p.2) ks

/-- A sequence of `updateKeyboardStates` calls, one per submitted guess. -/
def applyHintUpdates (ks : Char → Option Ev)
    (updates : List (List Char × List Ev)) : Char → Option Ev :=
  updates.foldl (fun m u => updateKeyboardStates m u.1 u.2) ks

/-- Numeric priority of a hint entry, with `undefined` (no hint, and also
the never-occurring 'empty') at 0; used to state monotonicity. -/
def hintPrio : Option Ev → Nat
  | none => 0
  | some e => (statePriority e).getD 0

/-- The game state object of `createNewState` in src/game.js: grid cells
are `''` (`none`) or an uppercase letter; `developerMode` exists only in
the game.js variant and is absent (constantly false) in part_000. -/
structure GameState where
  answer : List Char
  guesses : List (List (Option Char))
  evaluations : List (List Ev)
  currentRow : Nat
  currentCol : Nat
  status : Status
  keyStates : Char → Option Ev
  developerMode : Bool

/-- `createNewState(answerOverride)`: fresh 6×5 grid, cursors at the
origin, active status, no hints. -/
def createNewState (answerOverride : List Char) : GameState :=
  { answer := answerOverride
    guesses := List.replicate MAX_ROWS (List.replicate WORD_LENGTH none)
    evaluations := List.replicate MAX_ROWS (List.replicate WORD_LENGTH Ev.empty)
    currentRow := 0
    currentCol := 0
    status := Status.active
    keyStates := fun _ => none
    developerMode := false }

/-- `state.guesses[state.currentRow].join('')`: empty cells contribute
nothing to the joined string. -/
def joinedWord (s : GameState) : List Char :=
  (s.guesses.getD s.currentRow []).filterMap id

/-- `toggleDeveloperMode()` of src/game.js lines 272-281: flip the flag,
clear the current row's letters and evaluations, reset the column cursor,
and report a status message. -/
def toggleDeveloperMode (s : GameState) : GameState × String :=
  let s' : GameState :=
    { s with
      developerMode := !s.developerMode
      guesses := s.guesses.set s.currentRow (List.replicate WORD_LENGTH none)
      evaluations := s.evaluations.set s.currentRow (List.replicate WORD_LENGTH Ev.empty)
      currentCol := 0 }
  (s', if s'.developerMode then "Welcome developer." else "Developer mode disabled.")

/-- The developer code compared against the joined row: the string
literal 'ASDEV' of src/game.js line 291. -/
def devCode : List Char := "ASDEV".toList

/-- `submitGuess()` of src/game.js lines 283-330, parameterized by the
external dictionary check `valid` (`isValidGuess`). Returns the new state
and the status message set by the call. The 'ASDEV' developer-code branch
exists only in the game.js variant. -/
def submitGuess (valid : List Char → Bool) (s : GameState) : GameState × String :=
  if s.currentCol < WORD_LENGTH then
    (s, "Not enough letters.")
  else
    let guess := joinedWord s
    if guess = devCode then
      toggleDeveloperMode s
    else if !valid guess then
      (s, "Word is not in the list.")
    else
      let scored := scoreGuess guess s.answer
      let s1 : GameState :=
        { s with
          evaluations := s.evaluations.set s.currentRow scored
          keyStates := updateKeyboardStates s.keyStates guess scored }
      if guess = s.answer then
        ({ s1 with status := Status.won }, "You got it!")
      else
        let s2 : GameState :=
          { s1 with currentRow := s1.currentRow + 1, currentCol := 0 }
        if MAX_ROWS ≤ s2.currentRow then
          ({ s2 with status := Status.lost },
            "Game over. The word was " ++ String.mk s2.answer ++ ".")
        else
          (s2, "")

/-- The three kinds of input event `handleKeyInput` dispatches on: a
single letter key, 'backspace', or 'enter'. -/
inductive Key where
  | letter (c : Char)
  | backspace
  | enter
deriving DecidableEq

/-- `handleKeyInput(key)` of src/game.js lines 153-184 (identical logic in
part_000 lines 111-137): no-op when the game is not active; letters fill
the current row left to right, backspace erases, enter submits. The
second component is the status message, `none` when `setStatus` is not
called. -/
def handleKeyInput (valid : List Char → Bool) (s : GameState) (k : Key) :
    GameState × Option String :=
  if s.status ≠ Status.active then
    (s, none)
  else
    match k with
    | Key.letter c =>
        if s.currentCol < WORD_LENGTH then
          ({ s with
              guesses := s.guesses.set s.currentRow
                ((s.guesses.getD s.currentRow []).set s.currentCol (some c.toUpper))
              currentCol := s.currentCol + 1 }, none)
        else
          (s, none)
    | Key.backspace =>
        if 0 < s.currentCol then
          ({ s with
              currentCol := s.currentCol - 1
              guesses := s.guesses.set s.currentRow
                ((s.guesses.getD s.currentRow []).set (s.currentCol - 1) none) }, none)
        else
          (s, none)
    | Key.enter =>
        let r := submitGuess valid s
        (r.1, some r.2)

/-- Run a sequence of input events, keeping only the state. -/
def runKeys (valid : List Char → Bool) (s : GameState) (ks : List Key) : GameState :=
  ks.foldl (fun st k => (handleKeyInput valid st k).1) s

/-- A successfully parsed persisted payload (the JSON object written by
`persistState`): the game-state fields plus the `dayKey` stamp. A missing
or empty-string `answer` is modelled by `answer = []` (both are falsy in
`!parsed.answer`); a missing `dayKey` by `dayKey = none` (which compares
unequal to every day string); missing `keyStates` / `developerMode` by
`none`, defaulted on load as in the source. -/
structure Payload where
  dayKey : Option String
  answer : List Char
  guesses : List (List (Option Char))
  evaluations : List (List Ev)
  currentRow : Nat
  currentCol : Nat
  status : Status
  keyStates : Option (Char → Option Ev)
  developerMode : Option Bool

/-- What `localStorage.getItem` + `JSON.parse` can produce: no stored
value, a stored value that fails to parse (the `catch` branch), or a
parsed payload. -/
inductive RawStore where
  | missing
  | corrupt
  | parsed (p : Payload)

/-- `loadPersistedState()` of src/game.js lines 357-384 (identical in
part_000 lines 245-271 modulo the absent `developerMode`), with today's
local YYYY-MM-DD key as parameter: return `none` (treat as absent) for a
missing or unparseable payload, a `dayKey` other than today's, or a
missing/empty `answer`; otherwise rebuild the game state from the
payload's fields. -/
def loadPersistedState (today : String) (raw : RawStore) : Option GameState :=
  match raw with
  | RawStore.missing => none
  | RawStore.corrupt => none
  | RawStore.parsed p =>
      if p.dayKey ≠ some today ∨ p.answer = [] then
        none
      else
        some
          { answer := p.answer
            guesses := p.guesses
            evaluations := p.evaluations
            currentRow := p.currentRow
            currentCol := p.currentCol
            status := p.status
            keyStates := p.keyStates.getD (fun _ => none)
            developerMode := p.developerMode.getD false }

/-- The `init()` decision: restore the persisted state when the loader
accepts it, otherwise create a fresh game (with whatever answer the Word
Source supplies for it). -/
def initState (today : String) (raw : RawStore) (freshAnswer : List Char) : GameState :=
  match loadPersistedState today raw with
  | some st => st
  | none => createNewState freshAnswer

/-- Spec measure: how many positions of the guess hold the letter `L` and
are scored 'correct' and paired positionally with `L` in the answer
(i.e. exact matches of `L`). -/
def corrCount (L : Char) : List Char → List Char → Nat
  | g :: gs, a :: as => (if g = a ∧ g = L then 1 else 0) + corrCount L gs as
  | _, _ => 0

/-- Spec measure: how many positions of the guess hold the letter `L` and
are marked 'present' or 'correct' in an evaluation sequence. -/
def scoredHits (L : Char) (guess : List Char) (res : List Ev) : Nat :=
  (guess.zip res).countP
    (fun p => p.1 == L && (p.2 == Ev.present || p.2 == Ev.correct))

/-- Spec measure: how many positions hold the letter `L` in the guess but
not as an exact match with the answer (non-positional occurrences of
`L`); applied to `take i` prefixes it counts those strictly before
position `i`. -/
def missCount (L : Char) (guess answer : List Char) : Nat :=
  (guess.zip answer).countP (fun p => p.1 == L && p.1 != p.2)

/-- How many positions hold the letter `L` in the guess and are not
marked 'correct' in an evaluation sequence: exactly the positions that
consume the remaining count during pass 2. -/
def pass2Misses (L : Char) (gs : List Char) (rs : List Ev) : Nat :=
  (gs.zip rs).countP (fun p => p.1 == L && p.2 != Ev.correct)

/-- A dictionary check that rejects every word. -/
def validNone : List Char → Bool := fun _ => false

/-- A dictionary check that accepts every word. -/
def validAll : List Char → Bool := fun _ => true

/-- Helper for concrete states: a row holding the given word's letters. -/
def rowOf (w : String) : List (Option Char) := w.toList.map some

/-- Concrete state: a fresh game on answer CRANE whose current (first) row
has been filled with the developer code ASDEV. -/
def stateASDEV : GameState :=
  { createNewState "CRANE".toList with
      guesses := (createNewState "CRANE".toList).guesses.set 0 (rowOf "ASDEV")
      currentCol := 5 }

/-- Concrete state: a fresh game on answer CRANE whose current row has
been filled with QUERY. -/
def stateQUERY : GameState :=
  { createNewState "CRANE".toList with
      guesses := (createNewState "CRANE".toList).guesses.set 0 (rowOf "QUERY")
      currentCol := 5 }

/-- Concrete state: a finished (won) game on answer CRANE. -/
def stateWon : GameState :=
  { createNewState "CRANE".toList with status := Status.won }

/-- Concrete hint map: letter a already marked correct. -/
def ksCorrectA : Char → Option Ev :=
  fun c => if c = 'a' then some Ev.correct else none

/-- Concrete hint-update sequence: one guess whose first letter A is
merely present. -/
def hintUpdateDemo : List (List Char × List Ev) :=
  [("ABCDE".toList, [Ev.present, Ev.absent, Ev.absent, Ev.absent, Ev.absent])]

/-- Concrete persisted payload stamped with a prior calendar day. -/
def payloadStale : Payload :=
  { dayKey := some "2026-10-10"
    answer := "CRANE".toList
    guesses := []
    evaluations := []
    currentRow := 0
    currentCol := 0
    status := Status.active
    keyStates := none
    developerMode := none }

theorem getD_set_ne {α : Type} (l : List α) (i r : Nat) (a d : α) (h : r ≠ i) :
    (l.set i a).getD r d = l.getD r d := by
  simp [List.getD_eq_getElem?_getD, List.getElem?_set_ne (Ne.symm h)]

theorem getD_set_self {α : Type} (l : List α) (i : Nat) (a d : α) (h : i < l.length) :
    (l.set i a).getD i d = a := by
  simp [List.getD_eq_getElem?_getD, List.getElem?_set_self h]

theorem pass1_fst (gs as : List Char) (c : Char → Nat) :
    (pass1 gs as c).1 =
      List.zipWith (fun g a => if g = a then Ev.correct else Ev.absent) gs as := by
  induction gs generalizing as c with
  | nil => cases as <;> simp [pass1]
  | cons g gs ih =>
      cases as with
      | nil => simp [pass1]
      | cons a as =>
          by_cases h : g = a <;> simp [pass1, h, ih]

theorem pass1_snd (gs as : List Char) (c : Char → Nat) (L : Char) :
    (pass1 gs as c).2 L = c L - corrCount L gs as := by
  induction gs generalizing as c with
  | nil => cases as <;> simp [pass1, corrCount]
  | cons g gs ih =>
      cases as with
      | nil => simp [pass1, corrCount]
      | cons a as =>
          by_cases h : g = a
          · subst h
            by_cases hL : g = L
            · subst hL
              simp [pass1, corrCount, ih, decAt, Nat.sub_sub]
            · simp [pass1, corrCount, ih, decAt, hL, Ne.symm hL]
          · have hc : ¬(g = a ∧ g = L) := fun hc => h hc.1
            simp [pass1, corrCount, h, ih, hc]

theorem corrCount_le_count (L : Char) (gs as : List Char) :
    corrCount L gs as ≤ as.count L := by
  induction gs generalizing as with
  | nil => cases as <;> simp [corrCount]
  | cons g gs ih =>
      cases as with
      | nil => simp [corrCount]
      | cons a as =>
          have ih' := ih as
          simp only [corrCount, List.count_cons]
          by_cases hc : g = a ∧ g = L
          · have hLa : (a == L) = true := by
              rw [beq_iff_eq, ← hc.1, hc.2]
            rw [if_pos hc, hLa]
            simp
            omega
          · rw [if_neg hc]
            cases hLa : (a == L) <;> simp [hLa] <;> omega

theorem foldl_incAt (w : List Char) (acc : Char → Nat) (L : Char) :
    (w.foldl incAt acc) L = acc L + w.count L := by
  induction w generalizing acc with
  | nil => simp
  | cons a w ih =>
      simp only [List.foldl_cons, ih, List.count_cons, incAt]
      by_cases h : L = a
      · subst h; simp; omega
      · have : (L == a) = false := by simp [h]
        simp [h, this, Ne.symm h]

theorem getLetterCounts_eq_count (w : List Char) (L : Char) :
    getLetterCounts w L = w.count L := by
  simp [getLetterCounts, foldl_incAt]

theorem scoredHits_cons (L g : Char) (r : Ev) (gs : List Char) (rs : List Ev) :
    scoredHits L (g :: gs) (r :: rs) =
      scoredHits L gs rs +
        if g = L ∧ (r = Ev.present ∨ r = Ev.correct) then 1 else 0 := by
  simp only [scoredHits, List.zip_cons_cons, List.countP_cons, Bool.and_eq_true,
    Bool.or_eq_true, beq_iff_eq]

theorem scoredHits_pass2_le (L : Char) (gs : List Char) (rs : List Ev) (c : Char → Nat) :
    scoredHits L gs (pass2 gs rs c) ≤ scoredHits L gs rs + c L := by
  induction gs generalizing rs c with
  | nil => cases rs <;> simp [pass2, scoredHits]
  | cons g gs ih =>
      cases rs with
      | nil => simp [pass2, scoredHits]
      | cons r rs =>
          by_cases h : r = Ev.correct
          · subst h
            rw [show pass2 (g :: gs) (Ev.correct :: rs) c = Ev.correct :: pass2 gs rs c by
                simp [pass2]]
            rw [scoredHits_cons, scoredHits_cons]
            have := ih rs c
            omega
          · by_cases h2 : 0 < c g
            · rw [show pass2 (g :: gs) (r :: rs) c =
                    Ev.present :: pass2 gs rs (decAt c g) by simp [pass2, h, h2]]
              rw [scoredHits_cons, scoredHits_cons]
              by_cases hL : g = L
              · have hdec : decAt c g L = c L - 1 := by
                  subst hL
                  simp [decAt]
                have := ih rs (decAt c g)
                rw [hdec] at this
                have h1 : (if g = L ∧ (Ev.present = Ev.present ∨ Ev.present = Ev.correct)
                    then (1 : Nat) else 0) = 1 := by simp [hL]
                rw [h1]
                have hcl : 0 < c L := hL ▸ h2
                omega
              · have hLg : ¬L = g := fun hh => hL hh.symm
                have hdec : decAt c g L = c L := by simp [decAt, hLg]
                have := ih rs (decAt c g)
                rw [hdec] at this
                have h1 : (if g = L ∧ (Ev.present = Ev.present ∨ Ev.present = Ev.correct)
                    then (1 : Nat) else 0) = 0 := by simp [hL]
                have h3 : (if g = L ∧ (r = Ev.present ∨ r = Ev.correct)
                    then (1 : Nat) else 0) = 0 := by simp [hL]
                rw [h1, h3]
                omega
            · rw [show pass2 (g :: gs) (r :: rs) c = r :: pass2 gs rs c by
                  simp [pass2, h, h2]]
              rw [scoredHits_cons, scoredHits_cons]
              have := ih rs c
              omega

theorem scoredHits_pass1 (L : Char) (gs as : List Char) (c : Char → Nat) :
    scoredHits L gs (pass1 gs as c).1 = corrCount L gs as := by
  rw [pass1_fst]
  induction gs generalizing as with
  | nil => cases as <;> simp [scoredHits, corrCount]
  | cons g gs ih =>
      cases as with
      | nil => simp [scoredHits, corrCount]
      | cons a as =>
          simp only [List.zipWith_cons_cons]
          by_cases h : g = a
          · rw [if_pos h, scoredHits_cons, ih as]
            simp only [corrCount]
            by_cases hL : g = L
            · simp [h, hL, Nat.add_comm]
            · simp [h, hL, Nat.add_comm]
          · rw [if_neg h, scoredHits_cons]
            have hz : ¬(g = L ∧ (Ev.absent = Ev.present ∨ Ev.absent = Ev.correct)) := by
              rintro ⟨-, h2 | h2⟩ <;> exact Ev.noConfusion h2
            simp [hz, corrCount, h, ih]

theorem pass2_length (gs : List Char) (rs : List Ev) (c : Char → Nat) :
    (pass2 gs rs c).length = min gs.length rs.length := by
  induction gs generalizing rs c with
  | nil => cases rs <;> simp [pass2]
  | cons g gs ih =>
      cases rs with
      | nil => simp [pass2]
      | cons r rs =>
          by_cases h : r = Ev.correct
          · simp [pass2, h, ih, Nat.succ_min_succ]
          · by_cases h2 : 0 < c g <;>
              simp [pass2, h, h2, ih, Nat.succ_min_succ]

theorem pass1_fst_length (gs as : List Char) (c : Char → Nat) :
    (pass1 gs as c).1.length = min gs.length as.length := by
  simp [pass1_fst]

theorem pass2_mem (gs : List Char) (rs : List Ev) (c : Char → Nat) (e : Ev)
    (he : e ∈ pass2 gs rs c) : e = Ev.correct ∨ e = Ev.present ∨ e ∈ rs := by
  induction gs generalizing rs c with
  | nil => cases rs <;> simp [pass2] at he
  | cons g gs ih =>
      cases rs with
      | nil => simp [pass2] at he
      | cons r rs =>
          by_cases h : r = Ev.correct
          · rw [show pass2 (g :: gs) (r :: rs) c = Ev.correct :: pass2 gs rs c by
                simp [pass2, h]] at he
            rcases List.mem_cons.1 he with he | he
            · exact Or.inl he
            · rcases ih rs c he with h1 | h1 | h1
              · exact Or.inl h1
              · exact Or.inr (Or.inl h1)
              · exact Or.inr (Or.inr (List.mem_cons_of_mem r h1))
          · by_cases h2 : 0 < c g
            · rw [show pass2 (g :: gs) (r :: rs) c =
                    Ev.present :: pass2 gs rs (decAt c g) by simp [pass2, h, h2]] at he
              rcases List.mem_cons.1 he with he | he
              · exact Or.inr (Or.inl he)
              · rcases ih rs (decAt c g) he with h1 | h1 | h1
                · exact Or.inl h1
                · exact Or.inr (Or.inl h1)
                · exact Or.inr (Or.inr (List.mem_cons_of_mem r h1))
            · rw [show pass2 (g :: gs) (r :: rs) c = r :: pass2 gs rs c by
                simp [pass2, h, h2]] at he
              rcases List.mem_cons.1 he with he | he
              · exact Or.inr (Or.inr (he ▸ List.mem_cons_self r rs))
              · rcases ih rs c he with h1 | h1 | h1
                · exact Or.inl h1
                · exact Or.inr (Or.inl h1)
                · exact Or.inr (Or.inr (List.mem_cons_of_mem r h1))

theorem pass1_fst_mem (gs as : List Char) (c : Char → Nat) (e : Ev)
    (he : e ∈ (pass1 gs as c).1) : e = Ev.correct ∨ e = Ev.absent := by
  rw [pass1_fst] at he
  induction gs generalizing as with
  | nil => simp at he
  | cons g gs ih =>
      cases as with
      | nil => simp at he
      | cons a as =>
          rw [List.zipWith_cons_cons, List.mem_cons] at he
          rcases he with he | he
          · by_cases h : g = a
            · rw [if_pos h] at he
              exact Or.inl he
            · rw [if_neg h] at he
              exact Or.inr he
          · exact ih as he

theorem pass2_getElem_correct (gs : List Char) (rs : List Ev) (c : Char → Nat) (i : Nat) :
    (pass2 gs rs c)[i]? = some Ev.correct ↔
      rs[i]? = some Ev.correct ∧ i < gs.length := by
  induction gs generalizing rs c i with
  | nil => cases rs <;> simp [pass2]
  | cons g gs ih =>
      cases rs with
      | nil => simp [pass2]
      | cons r rs =>
          by_cases h : r = Ev.correct
          · rw [show pass2 (g :: gs) (r :: rs) c = Ev.correct :: pass2 gs rs c by
                simp [pass2, h]]
            cases i with
            | zero => simp [h]
            | succ i => simp [ih, Nat.succ_lt_succ_iff]
          · by_cases h2 : 0 < c g
            · rw [show pass2 (g :: gs) (r :: rs) c =
                    Ev.present :: pass2 gs rs (decAt c g) by simp [pass2, h, h2]]
              cases i with
              | zero => simp [h]
              | succ i => simp [ih, Nat.succ_lt_succ_iff]
            · rw [show pass2 (g :: gs) (r :: rs) c = r :: pass2 gs rs c by
                  simp [pass2, h, h2]]
              cases i with
              | zero => simp [h]
              | succ i => simp [ih, Nat.succ_lt_succ_iff]

theorem pass1_getElem_correct (gs : List Char) (as : List Char) (c : Char → Nat) (i : Nat) :
    (pass1 gs as c).1[i]? = some Ev.correct ↔
      ∃ x, gs[i]? = some x ∧ as[i]? = some x := by
  rw [pass1_fst]
  induction gs generalizing as i with
  | nil => simp
  | cons g gs ih =>
      cases as with
      | nil => simp
      | cons a as =>
          rw [List.zipWith_cons_cons]
          cases i with
          | zero =>
              by_cases h : g = a
              · simp [h]
              · simp [h, Ne.symm h]
          | succ i => simp [ih]

theorem pass1_getElem_ne (gs : List Char) : ∀ (as : List Char) (c : Char → Nat) (i : Nat)
    (x y : Char), gs[i]? = some x → as[i]? = some y → x ≠ y →
    (pass1 gs as c).1[i]? = some Ev.absent := by
  induction gs with
  | nil =>
      intro as c i x y hg _ _
      simp at hg
  | cons g gs ih =>
      intro as c i x y hg ha hxy
      cases as with
      | nil => simp at ha
      | cons a as =>
          rw [pass1_fst, List.zipWith_cons_cons]
          cases i with
          | zero =>
              simp only [List.getElem?_cons_zero, Option.some.injEq] at hg ha
              subst hg
              subst ha
              simp [hxy]
          | succ i =>
              simp only [List.getElem?_cons_succ] at hg ha ⊢
              have := ih as c i x y hg ha hxy
              rwa [pass1_fst] at this

theorem pass2_getElem_of_count_zero (gs : List Char) : ∀ (rs : List Ev) (c : Char → Nat)
    (i : Nat) (x : Char) (r : Ev), gs[i]? = some x → rs[i]? = some r →
    r ≠ Ev.correct → c x = 0 → (pass2 gs rs c)[i]? = some r := by
  induction gs with
  | nil =>
      intro rs c i x r hg _ _ _
      simp at hg
  | cons g gs ih =>
      intro rs c i x r hg hr hrc hc
      cases rs with
      | nil => simp at hr
      | cons r0 rs =>
          cases i with
          | zero =>
              simp only [List.getElem?_cons_zero, Option.some.injEq] at hg hr
              subst hg
              subst hr
              have h2 : ¬0 < c g := by omega
              rw [show pass2 (g :: gs) (r0 :: rs) c = r0 :: pass2 gs rs c by
                  simp [pass2, hrc, h2]]
              simp
          | succ i =>
              simp only [List.getElem?_cons_succ] at hg hr
              by_cases h : r0 = Ev.correct
              · rw [show pass2 (g :: gs) (r0 :: rs) c = Ev.correct :: pass2 gs rs c by
                    simp [pass2, h]]
                simpa using ih rs c i x r hg hr hrc hc
              · by_cases h2 : 0 < c g
                · rw [show pass2 (g :: gs) (r0 :: rs) c =
                        Ev.present :: pass2 gs rs (decAt c g) by simp [pass2, h, h2]]
                  have hc' : decAt c g x = 0 := by
                    simp only [decAt]
                    split <;> omega
                  simpa using ih rs (decAt c g) i x r hg hr hrc hc'
                · rw [show pass2 (g :: gs) (r0 :: rs) c = r0 :: pass2 gs rs c by
                      simp [pass2, h, h2]]
                  simpa using ih rs c i x r hg hr hrc hc

theorem pass1_fst_self (as : List Char) (c : Char → Nat) :
    (pass1 as as c).1 = List.replicate as.length Ev.correct := by
  induction as generalizing c with
  | nil => simp [pass1]
  | cons a as ih => simp [pass1, ih, List.replicate_succ]

theorem pass2_replicate_correct (gs : List Char) : ∀ (n : Nat) (c : Char → Nat),
    pass2 gs (List.replicate n Ev.correct) c =
      List.replicate (min gs.length n) Ev.correct := by
  induction gs with
  | nil =>
      intro n c
      cases n <;> simp [pass2]
  | cons g gs ih =>
      intro n c
      cases n with
      | zero => simp [pass2]
      | succ n =>
          rw [List.replicate_succ]
          rw [show pass2 (g :: gs) (Ev.correct :: List.replicate n Ev.correct) c =
              Ev.correct :: pass2 gs (List.replicate n Ev.correct) c by simp [pass2]]
          rw [ih n c]
          have hmin : min ((g :: gs).length) (n + 1) = min gs.length n + 1 := by
            simp only [List.length_cons]
            omega
          rw [hmin, List.replicate_succ]

theorem scoreGuess_self (a : List Char) :
    scoreGuess a a = List.replicate a.length Ev.correct := by
  simp only [scoreGuess]
  rw [pass1_fst_self, pass2_replicate_correct]
  simp

theorem jsGT_hintPrio (e cur : Ev)
    (h : jsGT (statePriority e) (statePriority cur) = true) :
    hintPrio (some cur) ≤ hintPrio (some e) := by
  revert h
  cases e <;> cases cur <;> decide

theorem applyKeyHint_of_none (ks : Char → Option Ev) (l : Char) (e : Ev)
    (hl : ks l = none) :
    applyKeyHint ks l e = fun c => if c = l then some e else ks c := by
  simp [applyKeyHint, hl]

theorem applyKeyHint_of_some_gt (ks : Char → Option Ev) (l : Char) (e cur : Ev)
    (hl : ks l = some cur)
    (hgt : jsGT (statePriority e) (statePriority cur) = true) :
    applyKeyHint ks l e = fun c => if c = l then some e else ks c := by
  simp [applyKeyHint, hl, hgt]

theorem applyKeyHint_of_some_le (ks : Char → Option Ev) (l : Char) (e cur : Ev)
    (hl : ks l = some cur)
    (hgt : ¬jsGT (statePriority e) (statePriority cur) = true) :
    applyKeyHint ks l e = ks := by
  simp [applyKeyHint, hl, hgt]

theorem applyKeyHint_mono (ks : Char → Option Ev) (l : Char) (e : Ev) (c : Char) :
    hintPrio (ks c) ≤ hintPrio (applyKeyHint ks l e c) := by
  cases hl : ks l with
  | none =>
      rw [applyKeyHint_of_none ks l e hl]
      by_cases hc : c = l
      · subst hc
        simp [hl, hintPrio]
      · simp [hc]
  | some cur =>
      by_cases hgt : jsGT (statePriority e) (statePriority cur) = true
      · rw [applyKeyHint_of_some_gt ks l e cur hl hgt]
        by_cases hc : c = l
        · subst hc
          simpa [hl] using jsGT_hintPrio e cur hgt
        · simp [hc]
      · rw [applyKeyHint_of_some_le ks l e cur hl hgt]

theorem applyKeyHint_correct (ks : Char → Option Ev) (l : Char) (e : Ev) (c : Char)
    (h : ks c = some Ev.correct) : applyKeyHint ks l e c = some Ev.correct := by
  cases hl : ks l with
  | none =>
      rw [applyKeyHint_of_none ks l e hl]
      by_cases hc : c = l
      · subst hc
        rw [h] at hl
        exact Option.noConfusion hl
      · simp [hc, h]
  | some cur =>
      by_cases hgt : jsGT (statePriority e) (statePriority cur) = true
      · by_cases hc : c = l
        · subst hc
          rw [h] at hl
          injection hl with hl
          subst hl
          exfalso
          revert hgt
          cases e <;> decide
        · rw [applyKeyHint_of_some_gt ks l e cur hl hgt]
          simp [hc, h]
      · rw [applyKeyHint_of_some_le ks l e cur hl hgt]
        exact h

theorem foldl_applyKeyHint_mono (pairs : List (Char × Ev)) :
    ∀ (ks : Char → Option Ev) (c : Char),
      hintPrio (ks c) ≤
          hintPrio ((pairs.foldl (fun acc p => applyKeyHint acc p.1.toLower p.2) ks) c) ∧
        (ks c = some Ev.correct →
          (pairs.foldl (fun acc p => applyKeyHint acc p.1.toLower p.2) ks) c =
            some Ev.correct) := by
  induction pairs with
  | nil =>
      intro ks c
      exact ⟨Nat.le_refl _, fun h => h⟩
  | cons p ps ih =>
      intro ks c
      simp only [List.foldl_cons]
      constructor
      · exact Nat.le_trans (applyKeyHint_mono ks p.1.toLower p.2 c)
          (ih (applyKeyHint ks p.1.toLower p.2) c).1
      · intro h
        exact (ih (applyKeyHint ks p.1.toLower p.2) c).2
          (applyKeyHint_correct ks p.1.toLower p.2 c h)

theorem updateKeyboardStates_mono (ks : Char → Option Ev) (gl : List Char)
    (ss : List Ev) (c : Char) :
    hintPrio (ks c) ≤ hintPrio (updateKeyboardStates ks gl ss c) ∧
      (ks c = some Ev.correct → updateKeyboardStates ks gl ss c = some Ev.correct) :=
  foldl_applyKeyHint_mono (gl.zip ss) ks c

theorem applyHintUpdates_mono (updates : List (List Char × List Ev)) :
    ∀ (ks : Char → Option Ev) (c : Char),
      hintPrio (ks c) ≤ hintPrio (applyHintUpdates ks updates c) ∧
        (ks c = some Ev.correct → applyHintUpdates ks updates c = some Ev.correct) := by
  induction updates with
  | nil =>
      intro ks c
      exact ⟨Nat.le_refl _, fun h => h⟩
  | cons u us ih =>
      intro ks c
      have h1 := updateKeyboardStates_mono ks u.1 u.2 c
      have h2 := ih (updateKeyboardStates ks u.1 u.2) c
      simp only [applyHintUpdates, List.foldl_cons] at h2 ⊢
      exact ⟨Nat.le_trans h1.1 h2.1, fun h => h2.2 (h1.2 h)⟩

theorem submitGuess_short (valid : List Char → Bool) (s : GameState)
    (h : s.currentCol < WORD_LENGTH) :
    submitGuess valid s = (s, "Not enough letters.") := by
  simp [submitGuess, h]

theorem submitGuess_asdev (valid : List Char → Bool) (s : GameState)
    (h1 : ¬s.currentCol < WORD_LENGTH) (h2 : joinedWord s = devCode) :
    submitGuess valid s = toggleDeveloperMode s := by
  simp [submitGuess, h1, h2]

theorem submitGuess_invalid (valid : List Char → Bool) (s : GameState)
    (h1 : ¬s.currentCol < WORD_LENGTH) (h2 : ¬joinedWord s = devCode)
    (h3 : valid (joinedWord s) = false) :
    submitGuess valid s = (s, "Word is not in the list.") := by
  simp [submitGuess, h1, h2, h3]

theorem submitGuess_win (valid : List Char → Bool) (s : GameState)
    (h1 : ¬s.currentCol < WORD_LENGTH) (h2 : ¬joinedWord s = devCode)
    (h3 : valid (joinedWord s) = true) (h4 : joinedWord s = s.answer) :
    submitGuess valid s =
      ({ s with
          evaluations := s.evaluations.set s.currentRow (scoreGuess (joinedWord s) s.answer)
          keyStates :=
            updateKeyboardStates s.keyStates (joinedWord s) (scoreGuess (joinedWord s) s.answer)
          status := Status.won }, "You got it!") := by
  simp only [submitGuess, h1, h2, h3]
  simp only [if_neg h1, if_neg h2, Bool.not_true, Bool.false_eq_true, if_false]
  rw [if_pos h4]

theorem submitGuess_advance (valid : List Char → Bool) (s : GameState)
    (h1 : ¬s.currentCol < WORD_LENGTH) (h2 : ¬joinedWord s = devCode)
    (h3 : valid (joinedWord s) = true) (h4 : ¬joinedWord s = s.answer)
    (h5 : ¬MAX_ROWS ≤ s.currentRow + 1) :
    submitGuess valid s =
      ({ s with
          evaluations := s.evaluations.set s.currentRow (scoreGuess (joinedWord s) s.answer)
          keyStates :=
            updateKeyboardStates s.keyStates (joinedWord s) (scoreGuess (joinedWord s) s.answer)
          currentRow := s.currentRow + 1
          currentCol := 0 }, "") := by
  simp only [submitGuess, h1, h2, h3]
  simp only [if_neg h1, if_neg h2, Bool.not_true, Bool.false_eq_true, if_false]
  rw [if_neg h4, if_neg h5]

theorem submitGuess_lose (valid : List Char → Bool) (s : GameState)
    (h1 : ¬s.currentCol < WORD_LENGTH) (h2 : ¬joinedWord s = devCode)
    (h3 : valid (joinedWord s) = true) (h4 : ¬joinedWord s = s.answer)
    (h5 : MAX_ROWS ≤ s.currentRow + 1) :
    submitGuess valid s =
      ({ s with
          evaluations := s.evaluations.set s.currentRow (scoreGuess (joinedWord s) s.answer)
          keyStates :=
            updateKeyboardStates s.keyStates (joinedWord s) (scoreGuess (joinedWord s) s.answer)
          currentRow := s.currentRow + 1
          currentCol := 0
          status := Status.lost },
        "Game over. The word was " ++ String.mk s.answer ++ ".") := by
  simp only [submitGuess, h1, h2, h3]
  simp only [if_neg h1, if_neg h2, Bool.not_true, Bool.false_eq_true, if_false]
  rw [if_neg h4, if_pos h5]

theorem submitGuess_frozen_below (valid : List Char → Bool) (s : GameState) (r : Nat)
    (hr : r < s.currentRow) :
    (submitGuess valid s).1.guesses.getD r [] = s.guesses.getD r [] ∧
      (submitGuess valid s).1.evaluations.getD r [] = s.evaluations.getD r [] ∧
      s.currentRow ≤ (submitGuess valid s).1.currentRow := by
  have hne : r ≠ s.currentRow := Nat.ne_of_lt hr
  by_cases h1 : s.currentCol < WORD_LENGTH
  · rw [submitGuess_short valid s h1]
    exact ⟨rfl, rfl, Nat.le_refl _⟩
  · by_cases h2 : joinedWord s = devCode
    · rw [submitGuess_asdev valid s h1 h2]
      refine ⟨?_, ?_, ?_⟩ <;>
        simp [toggleDeveloperMode, hne, Ne.symm hne]
    · by_cases h3 : valid (joinedWord s) = true
      · by_cases h4 : joinedWord s = s.answer
        · rw [submitGuess_win valid s h1 h2 h3 h4]
          refine ⟨rfl, ?_, Nat.le_refl _⟩
          simp [hne, Ne.symm hne]
        · by_cases h5 : MAX_ROWS ≤ s.currentRow + 1
          · rw [submitGuess_lose valid s h1 h2 h3 h4 h5]
            refine ⟨rfl, ?_, Nat.le_succ _⟩
            simp [hne, Ne.symm hne]
          · rw [submitGuess_advance valid s h1 h2 h3 h4 h5]
            refine ⟨rfl, ?_, Nat.le_succ _⟩
            simp [hne, Ne.symm hne]
      · have h3' : valid (joinedWord s) = false := by
          cases hvb : valid (joinedWord s)
          · rfl
          · exact absurd hvb h3
        rw [submitGuess_invalid valid s h1 h2 h3']
        exact ⟨rfl, rfl, Nat.le_refl _⟩

theorem handleKeyInput_frozen_below (valid : List Char → Bool) (s : GameState) (k : Key)
    (r : Nat) (hr : r < s.currentRow) :
    (handleKeyInput valid s k).1.guesses.getD r [] = s.guesses.getD r [] ∧
      (handleKeyInput valid s k).1.evaluations.getD r [] = s.evaluations.getD r [] ∧
      s.currentRow ≤ (handleKeyInput valid s k).1.currentRow := by
  have hne : r ≠ s.currentRow := Nat.ne_of_lt hr
  by_cases hs : s.status = Status.active
  · cases k with
    | letter c =>
        by_cases h : s.currentCol < WORD_LENGTH
        · refine ⟨?_, ?_, ?_⟩ <;>
            simp [handleKeyInput, hs, h, hne, Ne.symm hne]
        · simp [handleKeyInput, hs, h]
    | backspace =>
        by_cases h : 0 < s.currentCol
        · refine ⟨?_, ?_, ?_⟩ <;>
            simp [handleKeyInput, hs, h, hne, Ne.symm hne]
        · simp [handleKeyInput, hs, h]
    | enter =>
        have h := submitGuess_frozen_below valid s r hr
        simpa [handleKeyInput, hs] using h
  · simp [handleKeyInput, hs]

theorem runKeys_frozen_below (valid : List Char → Bool) (ks : List Key) :
    ∀ (s : GameState) (r : Nat), r < s.currentRow →
      (runKeys valid s ks).guesses.getD r [] = s.guesses.getD r [] ∧
        (runKeys valid s ks).evaluations.getD r [] = s.evaluations.getD r [] := by
  induction ks with
  | nil =>
      intro s r _
      exact ⟨rfl, rfl⟩
  | cons k ks ih =>
      intro s r hr
      obtain ⟨h1, h2, h3⟩ := handleKeyInput_frozen_below valid s k r hr
      have hstep := ih (handleKeyInput valid s k).1 r (Nat.lt_of_lt_of_le hr h3)
      simp only [runKeys, List.foldl_cons] at hstep ⊢
      exact ⟨hstep.1.trans h1, hstep.2.trans h2⟩

theorem handleKeyInput_terminal (valid : List Char → Bool) (s : GameState) (k : Key)
    (h : s.status ≠ Status.active) : (handleKeyInput valid s k).1 = s := by
  simp [handleKeyInput, h]

theorem pass2Misses_cons (L g : Char) (r : Ev) (gs : List Char) (rs : List Ev) :
    pass2Misses L (g :: gs) (r :: rs) =
      pass2Misses L gs rs + if g = L ∧ r ≠ Ev.correct then 1 else 0 := by
  simp only [pass2Misses, List.zip_cons_cons, List.countP_cons, Bool.and_eq_true,
    beq_iff_eq, bne_iff_ne]

theorem missCount_cons (L g a : Char) (gs as : List Char) :
    missCount L (g :: gs) (a :: as) =
      missCount L gs as + if g = L ∧ g ≠ a then 1 else 0 := by
  simp only [missCount, List.zip_cons_cons, List.countP_cons, Bool.and_eq_true,
    beq_iff_eq, bne_iff_ne]

theorem pass2Misses_eq_missCount (L : Char) (gs as : List Char) :
    pass2Misses L gs
        (List.zipWith (fun g a => if g = a then Ev.correct else Ev.absent) gs as) =
      missCount L gs as := by
  induction gs generalizing as with
  | nil => simp [pass2Misses, missCount]
  | cons g gs ih =>
      cases as with
      | nil => simp [pass2Misses, missCount]
      | cons a as =>
          rw [List.zipWith_cons_cons, pass2Misses_cons, missCount_cons, ih as]
          by_cases h : g = a
          · simp [h]
          · simp [h]

theorem pass2_present_iff (gs : List Char) : ∀ (rs : List Ev) (c : Char → Nat) (i : Nat)
    (x : Char), gs[i]? = some x → rs[i]? = some Ev.absent →
    (pass2 gs rs c)[i]? =
      if pass2Misses x (gs.take i) (rs.take i) < c x then some Ev.present
      else some Ev.absent := by
  induction gs with
  | nil =>
      intro rs c i x hg _
      simp at hg
  | cons g gs ih =>
      intro rs c i x hg hr
      cases rs with
      | nil => simp at hr
      | cons r rs =>
          cases i with
          | zero =>
              simp only [List.getElem?_cons_zero, Option.some.injEq] at hg hr
              subst hg
              subst hr
              by_cases h2 : 0 < c g
              · rw [show pass2 (g :: gs) (Ev.absent :: rs) c =
                      Ev.present :: pass2 gs rs (decAt c g) by simp [pass2, h2]]
                simp [pass2Misses, h2]
              · rw [show pass2 (g :: gs) (Ev.absent :: rs) c =
                      Ev.absent :: pass2 gs rs c by simp [pass2, h2]]
                simp [pass2Misses, h2]
          | succ i =>
              simp only [List.getElem?_cons_succ] at hg hr
              rw [show (g :: gs).take (i + 1) = g :: gs.take i from rfl,
                show (r :: rs).take (i + 1) = r :: rs.take i from rfl,
                pass2Misses_cons]
              by_cases h : r = Ev.correct
              · rw [show pass2 (g :: gs) (r :: rs) c = Ev.correct :: pass2 gs rs c by
                    simp [pass2, h]]
                rw [List.getElem?_cons_succ, ih rs c i x hg hr]
                have hz : (if g = x ∧ r ≠ Ev.correct then 1 else 0) = 0 := by simp [h]
                rw [hz, Nat.add_zero]
              · by_cases h2 : 0 < c g
                · rw [show pass2 (g :: gs) (r :: rs) c =
                        Ev.present :: pass2 gs rs (decAt c g) by simp [pass2, h, h2]]
                  rw [List.getElem?_cons_succ, ih rs (decAt c g) i x hg hr]
                  by_cases hgx : g = x
                  · have hone : (if g = x ∧ r ≠ Ev.correct then 1 else 0) = 1 := by
                      simp [hgx, h]
                    have hdec : decAt c g x = c x - 1 := by
                      simp [decAt, hgx]
                    have hcx : 0 < c x := by
                      rw [← hgx]
                      exact h2
                    rw [hone, hdec]
                    have hiff : (pass2Misses x (gs.take i) (rs.take i) < c x - 1) ↔
                        (pass2Misses x (gs.take i) (rs.take i) + 1 < c x) := by omega
                    rw [if_congr hiff rfl rfl]
                  · have hzero : (if g = x ∧ r ≠ Ev.correct then 1 else 0) = 0 := by
                      simp [hgx]
                    have hxg : ¬x = g := fun hh => hgx hh.symm
                    have hdec : decAt c g x = c x := by
                      simp [decAt, hxg]
                    rw [hzero, Nat.add_zero, hdec]
                · rw [show pass2 (g :: gs) (r :: rs) c = r :: pass2 gs rs c by
                      simp [pass2, h, h2]]
                  rw [List.getElem?_cons_succ, ih rs c i x hg hr]
                  by_cases hgx : g = x
                  · have hcx : c x = 0 := by
                      rw [← hgx]
                      omega
                    have hone : (if g = x ∧ r ≠ Ev.correct then 1 else 0) = 1 := by
                      simp [hgx, h]
                    rw [hone, hcx, if_neg (by omega), if_neg (by omega)]
                  · have hzero : (if g = x ∧ r ≠ Ev.correct then 1 else 0) = 0 := by
                      simp [hgx]
                    rw [hzero, Nat.add_zero]

/-- C1: for 5-letter guess and answer, `scoreGuess` (which is by
definition the two-pass scheme: `pass1` marks exact matches and
decrements the answer's letter multiset, `pass2` scans left to right
marking present while the remaining count is positive, else absent)
returns an evaluation sequence of length 5 with every element among
correct, present, absent. -/
theorem C1_scoreGuess_shape (g a : List Char) (hg : g.length = WORD_LENGTH)
    (ha : a.length = WORD_LENGTH) :
    (scoreGuess g a).length = WORD_LENGTH ∧
      ∀ e ∈ scoreGuess g a, e = Ev.correct ∨ e = Ev.present ∨ e = Ev.absent := by
  constructor
  · simp only [scoreGuess]
    rw [pass2_length, pass1_fst_length, hg, ha]
    simp
  · intro e he
    simp only [scoreGuess] at he
    rcases pass2_mem _ _ _ e he with h | h | h
    · exact Or.inl h
    · exact Or.inr (Or.inl h)
    · rcases pass1_fst_mem _ _ _ e h with h1 | h1
      · exact Or.inl h1
      · exact Or.inr (Or.inr h1)

/-- Witness for C1 at guess TRACE, answer CRANE. -/
theorem C1_witness :
    "TRACE".toList.length = WORD_LENGTH ∧ "CRANE".toList.length = WORD_LENGTH ∧
      ((scoreGuess "TRACE".toList "CRANE".toList).length = WORD_LENGTH ∧
        ∀ e ∈ scoreGuess "TRACE".toList "CRANE".toList,
          e = Ev.correct ∨ e = Ev.present ∨ e = Ev.absent) :=
  ⟨by decide, by decide,
    C1_scoreGuess_shape "TRACE".toList "CRANE".toList (by decide) (by decide)⟩

/-- C2: for every guess, answer and letter L, the number of positions of
the guess holding L that `scoreGuess` marks present or correct is at most
the number of occurrences of L in the answer; and the per-position
characterization pins the tie-break exactly: a position is correct iff it
is a positional match (those consume the count first, in pass 1), and a
non-matching position holding x is present iff the positional matches of
x together with the earlier (left-to-right) non-positional occurrences of
x have not yet exhausted the answer's count of x — otherwise it is
absent. In particular, with x twice in the guess and once in the answer,
the positional (or else earliest) occurrence is marked and the other is
absent. -/
theorem C2_scoring_priority (g a : List Char) (L : Char) :
    scoredHits L g (scoreGuess g a) ≤ a.count L ∧
      ∀ (i : Nat) (x y : Char), g[i]? = some x → a[i]? = some y →
        ((scoreGuess g a)[i]? = some Ev.correct ↔ x = y) ∧
          (x ≠ y →
            ((scoreGuess g a)[i]? = some Ev.present ↔
              corrCount x g a + missCount x (g.take i) (a.take i) < a.count x) ∧
            ((scoreGuess g a)[i]? = some Ev.absent ↔
              a.count x ≤ corrCount x g a + missCount x (g.take i) (a.take i))) := by
  constructor
  · have h1 := scoredHits_pass2_le L g (pass1 g a (getLetterCounts a)).1
      (pass1 g a (getLetterCounts a)).2
    rw [scoredHits_pass1, pass1_snd, getLetterCounts_eq_count] at h1
    have h2 := corrCount_le_count L g a
    simp only [scoreGuess]
    omega
  · intro i x y hgi hai
    constructor
    · constructor
      · intro hp
        simp only [scoreGuess] at hp
        rw [pass2_getElem_correct] at hp
        obtain ⟨h1, -⟩ := hp
        rw [pass1_getElem_correct] at h1
        obtain ⟨z, hz1, hz2⟩ := h1
        rw [hgi, Option.some.injEq] at hz1
        rw [hai, Option.some.injEq] at hz2
        rw [hz1, hz2]
      · intro hxy
        subst hxy
        simp only [scoreGuess]
        rw [pass2_getElem_correct, pass1_getElem_correct]
        obtain ⟨hi, -⟩ := List.getElem?_eq_some_iff.1 hgi
        exact ⟨⟨x, hgi, hai⟩, hi⟩
    · intro hxy
      have hres1 := pass1_getElem_ne g a (getLetterCounts a) i x y hgi hai hxy
      have heq := pass2_present_iff g (pass1 g a (getLetterCounts a)).1
        (pass1 g a (getLetterCounts a)).2 i x hgi hres1
      have hbridge : pass2Misses x (g.take i)
          ((pass1 g a (getLetterCounts a)).1.take i) =
          missCount x (g.take i) (a.take i) := by
        rw [pass1_fst, List.take_zipWith]
        exact pass2Misses_eq_missCount x (g.take i) (a.take i)
      have hc1 : (pass1 g a (getLetterCounts a)).2 x =
          a.count x - corrCount x g a := by
        rw [pass1_snd, getLetterCounts_eq_count]
      have hcorr := corrCount_le_count x g a
      rw [hbridge, hc1] at heq
      constructor
      · constructor
        · intro hp
          simp only [scoreGuess] at hp
          rw [heq] at hp
          by_cases hcond : missCount x (g.take i) (a.take i) <
              a.count x - corrCount x g a
          · omega
          · rw [if_neg hcond] at hp
            exact absurd hp (by decide)
        · intro hlt
          simp only [scoreGuess]
          rw [heq, if_pos (by omega)]
      · constructor
        · intro hp
          simp only [scoreGuess] at hp
          rw [heq] at hp
          by_cases hcond : missCount x (g.take i) (a.take i) <
              a.count x - corrCount x g a
          · rw [if_pos hcond] at hp
            exact absurd hp (by decide)
          · omega
        · intro hge
          simp only [scoreGuess]
          rw [heq, if_neg (by omega)]

/-- Witness for C2: guessing EEABC against ABEXY (one E, no positional
match of E): the earlier duplicate E at position 0 is present, the later
one at position 1 is absent. -/
theorem C2_witness :
    scoredHits 'E' "EEABC".toList (scoreGuess "EEABC".toList "ABEXY".toList) ≤
        "ABEXY".toList.count 'E' ∧
      (scoreGuess "EEABC".toList "ABEXY".toList)[0]? = some Ev.present ∧
      (scoreGuess "EEABC".toList "ABEXY".toList)[1]? = some Ev.absent := by
  have h := C2_scoring_priority "EEABC".toList "ABEXY".toList 'E'
  refine ⟨h.1, ?_, ?_⟩
  · exact ((h.2 0 'E' 'A' (by decide) (by decide)).2 (by decide)).1.mpr (by decide)
  · exact ((h.2 1 'E' 'B' (by decide) (by decide)).2 (by decide)).2.mpr (by decide)

/-- C3 counterexample: scoring TRACE against CRANE does not yield the
sequence claimed by the spec (position 2 holds A in both words, hence is
correct, and position 3's C is present because C was never consumed). -/
theorem C3_counterexample :
    scoreGuess "TRACE".toList "CRANE".toList ≠
      [Ev.absent, Ev.correct, Ev.present, Ev.absent, Ev.correct] := by
  decide

/-- C3 (amended): scoreGuess("TRACE", "CRANE") = [absent, correct,
correct, present, correct]. -/
theorem C3_trace_crane :
    scoreGuess "TRACE".toList "CRANE".toList =
      [Ev.absent, Ev.correct, Ev.correct, Ev.present, Ev.correct] := by
  decide

/-- C10: for 5-letter inputs, `scoreGuess` returns all-correct exactly
when guess = answer; and it is total: a position whose letter does not
occur in the answer at all is marked absent (the missing-key lookup
behaves as count 0) rather than failing. -/
theorem C10_all_correct_iff (g a : List Char) (hg : g.length = WORD_LENGTH)
    (ha : a.length = WORD_LENGTH) :
    (scoreGuess g a = List.replicate WORD_LENGTH Ev.correct ↔ g = a) ∧
      ∀ (i : Nat) (x : Char), g[i]? = some x → a.count x = 0 →
        (scoreGuess g a)[i]? = some Ev.absent := by
  constructor
  · constructor
    · intro h
      apply List.ext_getElem?
      intro i
      by_cases hi : i < WORD_LENGTH
      · have hsc : (scoreGuess g a)[i]? = some Ev.correct := by
          rw [h]
          simp [List.getElem?_replicate, hi]
        simp only [scoreGuess] at hsc
        rw [pass2_getElem_correct] at hsc
        obtain ⟨h1, -⟩ := hsc
        rw [pass1_getElem_correct] at h1
        obtain ⟨x, hx1, hx2⟩ := h1
        rw [hx1, hx2]
      · have h1 : g[i]? = none := List.getElem?_eq_none (by rw [hg]; omega)
        have h2 : a[i]? = none := List.getElem?_eq_none (by rw [ha]; omega)
        rw [h1, h2]
    · intro h
      subst h
      rw [scoreGuess_self, hg]
  · intro i x hgi hcount
    obtain ⟨hi, hgx⟩ := List.getElem?_eq_some_iff.1 hgi
    have hia : i < a.length := by
      rw [ha]
      rw [hg] at hi
      exact hi
    have hai : a[i]? = some a[i] := List.getElem?_eq_getElem hia
    have hne : x ≠ a[i] := by
      intro hxy
      have hmem : x ∈ a := by
        rw [hxy]
        exact List.getElem_mem hia
      rw [← List.count_pos_iff] at hmem
      omega
    have hres1 := pass1_getElem_ne g a (getLetterCounts a) i x a[i] hgi hai hne
    have hc1 : (pass1 g a (getLetterCounts a)).2 x = 0 := by
      rw [pass1_snd, getLetterCounts_eq_count, hcount]
      omega
    have := pass2_getElem_of_count_zero g (pass1 g a (getLetterCounts a)).1
      (pass1 g a (getLetterCounts a)).2 i x Ev.absent hgi hres1
      (fun hcon => Ev.noConfusion hcon) hc1
    simpa only [scoreGuess] using this

/-- Witness for C10: scoring CRANE against itself is all-correct. -/
theorem C10_witness :
    "CRANE".toList.length = WORD_LENGTH ∧
      (scoreGuess "CRANE".toList "CRANE".toList =
          List.replicate WORD_LENGTH Ev.correct ↔ "CRANE".toList = "CRANE".toList) :=
  ⟨by decide,
    (C10_all_correct_iff "CRANE".toList "CRANE".toList (by decide) (by decide)).1⟩

/-- C4: once the game's status is won or lost, any sequence of
letter/backspace/submit events leaves the entire state — in particular
guesses, evaluations, currentRow, currentCol and status — unchanged. -/
theorem C4_terminal_frozen (valid : List Char → Bool) (s : GameState) (ks : List Key)
    (h : s.status = Status.won ∨ s.status = Status.lost) :
    runKeys valid s ks = s := by
  have hne : s.status ≠ Status.active := by
    rcases h with h | h <;> rw [h] <;> exact fun hcon => Status.noConfusion hcon
  induction ks with
  | nil => rfl
  | cons k ks ih =>
      simp only [runKeys, List.foldl_cons]
      rw [handleKeyInput_terminal valid s k hne]
      exact ih

/-- Witness for C4: a won game ignores a letter, an enter and a
backspace. -/
theorem C4_witness :
    (stateWon.status = Status.won ∨ stateWon.status = Status.lost) ∧
      runKeys validNone stateWon [Key.letter 'A', Key.enter, Key.backspace] = stateWon :=
  ⟨Or.inl rfl, C4_terminal_frozen validNone stateWon
    [Key.letter 'A', Key.enter, Key.backspace] (Or.inl rfl)⟩

/-- C5 counterexample: in the game.js variant, a full row spelling ASDEV
under a dictionary that rejects every word is a submission whose
candidate fails the validity check, yet submitting mutates the state
(it toggles developerMode and clears the row). -/
theorem C5_counterexample :
    stateASDEV.status = Status.active ∧
      validNone (joinedWord stateASDEV) = false ∧
      (submitGuess validNone stateASDEV).1 ≠ stateASDEV := by
  refine ⟨rfl, rfl, fun h => ?_⟩
  have hdev : (submitGuess validNone stateASDEV).1.developerMode = true := by decide
  rw [h] at hdev
  exact absurd hdev (by decide)

/-- C5 (amended): for an active state, a submit rejected as a recoverable
user error — too few letters, or a candidate that is not the developer
code ASDEV and fails the validity check — produces only a status message
and leaves the state completely unchanged. (The amendment excludes the
developer code, which game.js intercepts before the dictionary check and
which mutates the state.) -/
theorem C5_rejected_submit_unchanged (valid : List Char → Bool) (s : GameState)
    (_hact : s.status = Status.active)
    (h : s.currentCol < WORD_LENGTH ∨
      (joinedWord s ≠ devCode ∧ valid (joinedWord s) = false)) :
    (submitGuess valid s).1 = s ∧
      ((submitGuess valid s).2 = "Not enough letters." ∨
        (submitGuess valid s).2 = "Word is not in the list.") := by
  rcases h with h | ⟨h2, h3⟩
  · rw [submitGuess_short valid s h]
    exact ⟨rfl, Or.inl rfl⟩
  · by_cases h1 : s.currentCol < WORD_LENGTH
    · rw [submitGuess_short valid s h1]
      exact ⟨rfl, Or.inl rfl⟩
    · rw [submitGuess_invalid valid s h1 h2 h3]
      exact ⟨rfl, Or.inr rfl⟩

/-- Witness for C5 at a full QUERY row with a rejecting dictionary. -/
theorem C5_witness :
    stateQUERY.status = Status.active ∧
      (joinedWord stateQUERY ≠ devCode ∧ validNone (joinedWord stateQUERY) = false) ∧
      (submitGuess validNone stateQUERY).1 = stateQUERY :=
  ⟨rfl, ⟨by decide, rfl⟩,
    (C5_rejected_submit_unchanged validNone stateQUERY rfl
      (Or.inr ⟨by decide, rfl⟩)).1⟩

/-- C6 counterexample: with a dictionary accepting every word, submitting
the full row ASDEV (a valid candidate, not the answer, on row 0 < 5) does
not advance currentRow: game.js intercepts the developer code before
scoring. -/
theorem C6_counterexample :
    stateASDEV.status = Status.active ∧
      ¬stateASDEV.currentCol < WORD_LENGTH ∧
      validAll (joinedWord stateASDEV) = true ∧
      joinedWord stateASDEV ≠ stateASDEV.answer ∧
      stateASDEV.currentRow < MAX_ROWS - 1 ∧
      ¬(submitGuess validAll stateASDEV).1.currentRow = stateASDEV.currentRow + 1 := by
  refine ⟨rfl, by decide, rfl, by decide, by decide, by decide⟩

/-- C6 (amended): for an active state with a full current row whose
candidate is not the developer code ASDEV, is accepted by the dictionary,
differs from the answer, and sits on a row before the last: currentRow
increases by exactly 1, currentCol resets to 0, status stays active, the
submitted row's evaluation is stored as the score, the letter grid is
untouched by the submit, and every row before the new currentRow is
frozen under all further input events. -/
theorem C6_row_advance (valid : List Char → Bool) (s : GameState)
    (hact : s.status = Status.active)
    (hcol : ¬s.currentCol < WORD_LENGTH)
    (hlen : s.evaluations.length = MAX_ROWS)
    (hdev : joinedWord s ≠ devCode)
    (hval : valid (joinedWord s) = true)
    (hans : joinedWord s ≠ s.answer)
    (hrow : s.currentRow < MAX_ROWS - 1) :
    (submitGuess valid s).1.currentRow = s.currentRow + 1 ∧
      (submitGuess valid s).1.currentCol = 0 ∧
      (submitGuess valid s).1.status = Status.active ∧
      (submitGuess valid s).1.evaluations.getD s.currentRow [] =
        scoreGuess (joinedWord s) s.answer ∧
      (submitGuess valid s).1.guesses = s.guesses ∧
      ∀ (ks : List Key) (r : Nat), r < s.currentRow + 1 →
        (runKeys valid (submitGuess valid s).1 ks).guesses.getD r [] =
            (submitGuess valid s).1.guesses.getD r [] ∧
          (runKeys valid (submitGuess valid s).1 ks).evaluations.getD r [] =
            (submitGuess valid s).1.evaluations.getD r [] := by
  have h5 : ¬MAX_ROWS ≤ s.currentRow + 1 := by
    simp only [MAX_ROWS] at hrow ⊢
    omega
  have hlt : s.currentRow < s.evaluations.length := by
    rw [hlen]
    simp only [MAX_ROWS] at hrow ⊢
    omega
  rw [submitGuess_advance valid s hcol hdev hval hans h5]
  refine ⟨rfl, rfl, hact, getD_set_self _ _ _ _ hlt, rfl, ?_⟩
  intro ks r hr
  exact runKeys_frozen_below valid ks _ r hr

/-- Witness for C6 at a full QUERY row against answer CRANE with an
accepting dictionary. -/
theorem C6_witness :
    stateQUERY.status = Status.active ∧
      validAll (joinedWord stateQUERY) = true ∧
      joinedWord stateQUERY ≠ stateQUERY.answer ∧
      (submitGuess validAll stateQUERY).1.currentRow = stateQUERY.currentRow + 1 ∧
      (submitGuess validAll stateQUERY).1.currentCol = 0 := by
  have h := C6_row_advance validAll stateQUERY rfl (by decide) (by decide) (by decide)
    rfl (by decide) (by decide)
  exact ⟨rfl, rfl, by decide, h.1, h.2.1⟩

/-- C9: in the game.js variant, submitting a full row spelling the
developer code ASDEV bypasses the dictionary check (the result is the
same for every `valid`) and does not consume an attempt: developerMode is
toggled, the current row's letters and evaluations are cleared, currentCol
resets to 0, and currentRow, status, the other rows' evaluations,
keyStates and the answer are unchanged. -/
theorem C9_asdev_toggle (valid : List Char → Bool) (s : GameState)
    (_hact : s.status = Status.active)
    (hcol : ¬s.currentCol < WORD_LENGTH)
    (hg : s.currentRow < s.guesses.length)
    (he : s.currentRow < s.evaluations.length)
    (hj : joinedWord s = devCode) :
    (submitGuess valid s).1.developerMode = !s.developerMode ∧
      (submitGuess valid s).1.guesses.getD s.currentRow [] =
        List.replicate WORD_LENGTH none ∧
      (submitGuess valid s).1.evaluations.getD s.currentRow [] =
        List.replicate WORD_LENGTH Ev.empty ∧
      (submitGuess valid s).1.currentCol = 0 ∧
      (submitGuess valid s).1.currentRow = s.currentRow ∧
      (submitGuess valid s).1.status = s.status ∧
      (submitGuess valid s).1.keyStates = s.keyStates ∧
      (submitGuess valid s).1.answer = s.answer ∧
      ∀ r : Nat, r ≠ s.currentRow →
        (submitGuess valid s).1.guesses.getD r [] = s.guesses.getD r [] ∧
          (submitGuess valid s).1.evaluations.getD r [] = s.evaluations.getD r [] := by
  rw [submitGuess_asdev valid s hcol hj]
  refine ⟨rfl, ?_, ?_, rfl, rfl, rfl, rfl, rfl, fun r hr => ⟨?_, ?_⟩⟩
  · show (s.guesses.set s.currentRow (List.replicate WORD_LENGTH none)).getD
        s.currentRow [] = List.replicate WORD_LENGTH none
    exact getD_set_self _ _ _ _ hg
  · show (s.evaluations.set s.currentRow (List.replicate WORD_LENGTH Ev.empty)).getD
        s.currentRow [] = List.replicate WORD_LENGTH Ev.empty
    exact getD_set_self _ _ _ _ he
  · show (s.guesses.set s.currentRow (List.replicate WORD_LENGTH none)).getD r [] =
        s.guesses.getD r []
    exact getD_set_ne _ _ _ _ _ hr
  · show (s.evaluations.set s.currentRow (List.replicate WORD_LENGTH Ev.empty)).getD
        r [] = s.evaluations.getD r []
    exact getD_set_ne _ _ _ _ _ hr

/-- Witness for C9 at the concrete ASDEV state with a rejecting
dictionary. -/
theorem C9_witness :
    stateASDEV.status = Status.active ∧ joinedWord stateASDEV = devCode ∧
      (submitGuess validNone stateASDEV).1.developerMode = !stateASDEV.developerMode ∧
      (submitGuess validNone stateASDEV).1.currentRow = stateASDEV.currentRow := by
  have h := C9_asdev_toggle validNone stateASDEV rfl (by decide) (by decide) (by decide)
    (by decide)
  exact ⟨rfl, by decide, h.1, h.2.2.2.2.1⟩

/-- C7: under any sequence of hint updates via the aggregator, a letter's
hint priority (absent 1 < present 2 < correct 3) never decreases — a hint
is replaced only when the letter has no hint or the new priority strictly
exceeds the old — and in particular a letter once mapped to correct is
never overwritten. -/
theorem C7_hint_monotonic (ks : Char → Option Ev)
    (updates : List (List Char × List Ev)) (c : Char) :
    hintPrio (ks c) ≤ hintPrio (applyHintUpdates ks updates c) ∧
      (ks c = some Ev.correct → applyHintUpdates ks updates c = some Ev.correct) :=
  applyHintUpdates_mono updates ks c

/-- Witness for C7: a correct hint for letter a survives an update
marking A merely present. -/
theorem C7_witness :
    ksCorrectA 'a' = some Ev.correct ∧
      applyHintUpdates ksCorrectA hintUpdateDemo 'a' = some Ev.correct :=
  ⟨rfl, (C7_hint_monotonic ksCorrectA hintUpdateDemo 'a').2 rfl⟩

/-- C8: loading discards the persisted payload (so a fresh game is
created) exactly when it is missing, fails to parse, carries a dayKey
other than today's, or has a missing/empty answer; in particular a
payload stamped on a prior calendar day is never restored. -/
theorem C8_load_discard (today : String) (raw : RawStore) (freshAnswer : List Char) :
    (loadPersistedState today raw = none ↔
        raw = RawStore.missing ∨ raw = RawStore.corrupt ∨
          ∃ p, raw = RawStore.parsed p ∧ (p.dayKey ≠ some today ∨ p.answer = [])) ∧
      ∀ p, raw = RawStore.parsed p → p.dayKey ≠ some today →
        initState today raw freshAnswer = createNewState freshAnswer := by
  constructor
  · cases raw with
    | missing => simp [loadPersistedState]
    | corrupt => simp [loadPersistedState]
    | parsed p =>
        simp only [loadPersistedState]
        by_cases h : p.dayKey ≠ some today ∨ p.answer = []
        · simp [h]
        · simp [h]
  · intro p hp hkey
    subst hp
    simp [initState, loadPersistedState, hkey]

/-- Witness for C8: a payload stamped 2026-10-10 is not restored on
2026-10-11; a fresh game is created instead. -/
theorem C8_witness :
    payloadStale.dayKey ≠ some "2026-10-11" ∧
      initState "2026-10-11" (RawStore.parsed payloadStale) "QUERY".toList =
        createNewState "QUERY".toList :=
  ⟨by decide, (C8_load_discard "2026-10-11" (RawStore.parsed payloadStale)
      "QUERY".toList).2 payloadStale rfl (by decide)⟩

end Wordle
